import Mathlib

/-!
# Verification of the synthetic-control testbed

A shallow embedding of `testbed.py`, which has two core functions:

* `SimulateData(N_c, N_t, mu, Sigma, l, u, Gamma)` — generates control
  covariates `X_c` (multivariate-normal draws), a sparse row-stochastic
  weight matrix `W` (for each treated unit `i`: draw a support size
  `n_i = randint(l, u)`, sample `n_i` distinct control indices with
  `random.sample`, draw `n_i` uniforms, divide them by their sum and
  scatter into row `i`), and `X_t = W · X_c + noise`.
* `EstimateWeights(X_c, X_t)` — for each treated unit, solves with cvxpy
  the QP `min ‖X_cᵀ w − X_t[i,]‖²` subject to `0 ≤ w ≤ 1, Σ w = 1`, and
  stores `w.value` into row `i` of a freshly allocated `W_hat`.

Modelling choices:

* Machine reals are modelled as `ℚ` (exact arithmetic; in `ℚ`, `x / 0 = 0`,
  whereas IEEE arithmetic would give non-finite values — noted where it
  matters).
* The library random sources (`np.random.multivariate_normal`,
  `np.random.randint`, `random.sample`, `np.random.uniform`,
  i.e. process-global state consumed by the call) are modelled as an
  explicit record `Draws` of the values those sources return.  The
  distribution parameters `mu`, `Sigma`, `Gamma` only parameterise those
  library draws and play no role in the deterministic data flow, so they do
  not appear as arguments of the model.
* The external QP solver (cvxpy) is modelled as an oracle argument
  `solve`; hypotheses on the oracle state the solver's contract (returned
  point feasible, resp. optimal, for exactly the constraints the code
  builds).  cvxpy's `Problem.solve` can return normally with a
  non-converged status (e.g. `optimal_inaccurate`) while still populating
  `Variable.value`; the status is part of the oracle's result so that the
  code's (non-)handling of it is visible.
-/

set_option autoImplicit false

namespace Testbed

/-! ## Data generation (`SimulateData`, testbed.py lines 7–50) -/

/-- `random.sample(xrange(N_c), n)` + `np.random.uniform(size=n)` +
`np.random.multivariate_normal` draws consumed by one `SimulateData` call:
everything the process-global random sources return.  `supportSize i` is
`n[i] = np.random.randint(low=l, high=u)[i]`; `support i` is the list of
distinct control indices for row `i`; `uniforms i` the uniform draws for
row `i`; `xcDraws` the normal draws forming `X_c`; `noise` the
normal noise added to `W·X_c`. -/
structure Draws (Nc Nt k : ℕ) where
  xcDraws : Fin Nc → Fin k → ℚ
  supportSize : Fin Nt → ℕ
  support : Fin Nt → List (Fin Nc)
  uniforms : Fin Nt → List ℚ
  noise : Fin Nt → Fin k → ℚ

/-- The fancy-index assignment `W[i, random_index] = vals` (testbed.py
line 45): position `j` receives the value paired with the first occurrence
of `j` in `random_index`, all other positions stay `0`.  (`random.sample`
guarantees the indices are distinct, so first-occurrence vs numpy's
last-write-wins is immaterial under the `Nodup` hypothesis used
throughout.) -/
def scatter {Nc : ℕ} : List (Fin Nc) → List ℚ → Fin Nc → ℚ
  | s :: ss, v :: vs, j => if j = s then v else scatter ss vs j
  | _, _, _ => 0

/-- `non_standardized / non_standardized.sum()` (testbed.py line 45):
divide every draw by the sum of the draws.  No guard against a zero sum. -/
def normalizeRow (vals : List ℚ) : List ℚ :=
  vals.map (fun v => v / vals.sum)

/-- Number of nonzero entries of a row (the quantity constrained by the
spec's per-row support-size guarantee). -/
def nonzeroCount {Nc : ℕ} (w : Fin Nc → ℚ) : ℕ :=
  (Finset.univ.filter fun j => w j ≠ 0).card

/-- `SimulateData` (testbed.py lines 7–50), with the random draws explicit.
`l` and `u` bound `supportSize` (they are passed to `np.random.randint`);
the bound appears as a hypothesis on `r` in the theorems.  Returns
`(X_c, X_t, W)` with `X_t = np.dot(W, X_c) + noise`. -/
def SimulateData (Nc Nt k : ℕ) (l u : ℕ) (r : Draws Nc Nt k) :
    (Fin Nc → Fin k → ℚ) × (Fin Nt → Fin k → ℚ) × (Fin Nt → Fin Nc → ℚ) :=
  let X_c := r.xcDraws
  let W := fun i => scatter (r.support i) (normalizeRow (r.uniforms i))
  let X_t := fun i j => (∑ c, W i c * X_c c j) + r.noise i j
  (X_c, X_t, W)

/-! ## Weight estimation (`EstimateWeights`, testbed.py lines 53–87) -/

/-- Status component of a cvxpy solve: `Problem.solve` can return normally
either having converged (`optimal`) or having hit its iteration budget with
an inaccurate solution (`optimalInaccurate`); in both cases
`Variable.value` is populated. -/
inductive SolverStatus where
  | optimal
  | optimalInaccurate
deriving DecidableEq

/-- Result of one cvxpy solve: the status and the value left in the
cvx `Variable` `w` (read by `w.value.getA1()`, testbed.py line 85). -/
structure SolveResult (Nc : ℕ) where
  status : SolverStatus
  value : Fin Nc → ℚ

/-- The second argument of `EstimateWeights`: `X_t` may be an
`N_t × k` array or a 1-D length-`k` array (testbed.py line 69 checks
`len(X_t.shape) == 1`). -/
inductive TreatedInput (k : ℕ) where
  | single : (Fin k → ℚ) → TreatedInput k
  | batch : (Nt : ℕ) → (Fin Nt → Fin k → ℚ) → TreatedInput k

/-- `N_t` as computed on testbed.py lines 69–72: `1` for a 1-D input,
`len(X_t)` otherwise. -/
def numRows {k : ℕ} : TreatedInput k → ℕ
  | .single _ => 1
  | .batch Nt _ => Nt

/-- The vector subtracted in the objective `X_c.T * w - X_t[i,]`
(testbed.py line 80).  For a 2-D `X_t` this is row `i`.  For a 1-D `X_t`,
numpy evaluates `X_t[i,]` to the *scalar* `X_t[i]` (here `i = 0`), which
cvxpy broadcasts against the `k`-vector `X_c.T * w` — i.e. the target is
the constant vector `X_t[0]`, not the input vector itself. -/
def targetRow {k : ℕ} [NeZero k] :
    (t : TreatedInput k) → Fin (numRows t) → Fin k → ℚ
  | .single x, _ => fun _ => x 0
  | .batch _ X, i => X i

/-- The feasible set the code imposes (testbed.py line 81):
`0 <= w`, `w <= 1`, `sum_entries(w) == 1`. -/
def simplex {Nc : ℕ} (w : Fin Nc → ℚ) : Prop :=
  (∀ j, 0 ≤ w j ∧ w j ≤ 1) ∧ (∑ j, w j) = 1

instance {Nc : ℕ} (w : Fin Nc → ℚ) : Decidable (simplex w) := by
  unfold simplex; infer_instance

/-- The objective the code builds (testbed.py line 80):
`sum_squares(X_c.T * w - x)` where `(X_c.T * w)_j = ∑ c, X_c c j * w c`. -/
def objSq {Nc k : ℕ} (X_c : Fin Nc → Fin k → ℚ) (x : Fin k → ℚ)
    (w : Fin Nc → ℚ) : ℚ :=
  ∑ j, ((∑ c, X_c c j * w c) - x j) ^ 2

/-- Solver contract: the returned point satisfies the constraints the code
passed to cvxpy. -/
def IsFeasibleSolver {Nc k : ℕ}
    (solve : (Fin Nc → Fin k → ℚ) → (Fin k → ℚ) → SolveResult Nc) : Prop :=
  ∀ X_c x, simplex (solve X_c x).value

/-- Solver contract: the returned point is feasible and minimises the
objective the code built over the feasible set. -/
def IsExactSolver {Nc k : ℕ}
    (solve : (Fin Nc → Fin k → ℚ) → (Fin k → ℚ) → SolveResult Nc) : Prop :=
  ∀ X_c x, simplex (solve X_c x).value ∧
    ∀ v, simplex v → objSq X_c x (solve X_c x).value ≤ objSq X_c x v

/-- `EstimateWeights` (testbed.py lines 53–87) with the cvxpy solve as an
oracle.  Per unit `i` the code builds the QP with target `X_t[i,]`, calls
`prob.solve()` (whose return value `min_value` is never used and whose
status `prob.status` is never inspected), and unconditionally stores
`w.value.getA1()` into row `i` of `W_hat`. -/
def EstimateWeights {Nc k : ℕ} [NeZero k]
    (solve : (Fin Nc → Fin k → ℚ) → (Fin k → ℚ) → SolveResult Nc)
    (X_c : Fin Nc → Fin k → ℚ) (X_t : TreatedInput k) :
    Fin (numRows X_t) → Fin Nc → ℚ :=
  fun i => (solve X_c (targetRow X_t i)).value

/-! ## Helper lemmas about `scatter` and `normalizeRow` -/

lemma scatter_nil {Nc : ℕ} (vals : List ℚ) (j : Fin Nc) :
    scatter [] vals j = 0 := by
  cases vals <;> rfl

lemma scatter_cons_nil {Nc : ℕ} (s : Fin Nc) (ss : List (Fin Nc)) (j : Fin Nc) :
    scatter (s :: ss) [] j = 0 := rfl

lemma scatter_eq_zero_of_not_mem {Nc : ℕ} :
    ∀ (support : List (Fin Nc)) (vals : List ℚ) (j : Fin Nc),
      j ∉ support → scatter support vals j = 0
  | [], vals, j, _ => scatter_nil vals j
  | s :: ss, [], j, _ => rfl
  | s :: ss, v :: vs, j, h => by
    have hjs : j ≠ s := fun hj => h (hj ▸ List.mem_cons_self s ss)
    have hjss : j ∉ ss := fun hj => h (List.mem_cons_of_mem s hj)
    simpa [scatter, hjs] using scatter_eq_zero_of_not_mem ss vs j hjss

lemma scatter_cons_split {Nc : ℕ} (s : Fin Nc) (ss : List (Fin Nc))
    (v : ℚ) (vs : List ℚ) (hs : s ∉ ss) (j : Fin Nc) :
    scatter (s :: ss) (v :: vs) j =
      scatter ss vs j + if j = s then v else 0 := by
  by_cases h : j = s
  · subst h
    simp [scatter, scatter_eq_zero_of_not_mem ss vs _ hs]
  · simp [scatter, h]

lemma sum_scatter {Nc : ℕ} :
    ∀ (support : List (Fin Nc)) (vals : List ℚ), support.Nodup →
      vals.length = support.length →
      (∑ j, scatter support vals j) = vals.sum := by
  intro support
  induction support with
  | nil =>
    intro vals _ hlen
    have hv : vals = [] := List.eq_nil_of_length_eq_zero hlen
    subst hv
    simp [scatter_nil]
  | cons s ss ih =>
    intro vals hnd hlen
    match vals with
    | v :: vs =>
      have hs : s ∉ ss := (List.nodup_cons.mp hnd).1
      have hnd' : ss.Nodup := (List.nodup_cons.mp hnd).2
      have hlen' : vs.length = ss.length := by
        simpa using hlen
      calc (∑ j, scatter (s :: ss) (v :: vs) j)
          = ∑ j, (scatter ss vs j + if j = s then v else 0) := by
            refine Finset.sum_congr rfl fun j _ => ?_
            exact scatter_cons_split s ss v vs hs j
        _ = (∑ j, scatter ss vs j) + ∑ j, (if j = s then v else 0) := by
            rw [Finset.sum_add_distrib]
        _ = vs.sum + v := by
            rw [ih vs hnd' hlen', Finset.sum_ite_eq' Finset.univ s fun _ => v]
            simp
        _ = (v :: vs).sum := by simp [add_comm]

lemma scatter_eq_zero_or_mem {Nc : ℕ} :
    ∀ (support : List (Fin Nc)) (vals : List ℚ) (j : Fin Nc),
      scatter support vals j = 0 ∨ scatter support vals j ∈ vals
  | [], vals, j => Or.inl (scatter_nil vals j)
  | s :: ss, [], j => Or.inl rfl
  | s :: ss, v :: vs, j => by
    by_cases h : j = s
    · right
      simp [scatter, h]
    · rcases scatter_eq_zero_or_mem ss vs j with h0 | hm
      · left; simpa [scatter, h] using h0
      · right; simp [scatter, h, hm]

lemma scatter_ne_zero_iff {Nc : ℕ} :
    ∀ (support : List (Fin Nc)) (vals : List ℚ), support.Nodup →
      vals.length = support.length → (∀ x ∈ vals, x ≠ 0) →
      ∀ j, (scatter support vals j ≠ 0 ↔ j ∈ support)
  | [], vals, _, hlen, _, j => by
    have hv : vals = [] := List.eq_nil_of_length_eq_zero hlen
    subst hv
    simp [scatter_nil]
  | s :: ss, [], _, hlen, _, j => by simp at hlen
  | s :: ss, v :: vs, hnd, hlen, hnz, j => by
    have hs : s ∉ ss := (List.nodup_cons.mp hnd).1
    have hnd' : ss.Nodup := (List.nodup_cons.mp hnd).2
    have hlen' : vs.length = ss.length := by simpa using hlen
    have hnz' : ∀ x ∈ vs, x ≠ 0 := fun x hx => hnz x (List.mem_cons_of_mem v hx)
    by_cases h : j = s
    · subst h
      have hv : v ≠ 0 := hnz v (List.mem_cons_self v vs)
      simp [scatter, hv]
    · have := scatter_ne_zero_iff ss vs hnd' hlen' hnz' j
      simp only [scatter, if_neg h, this, List.mem_cons]
      exact (or_iff_right h).symm

lemma nonzeroCount_scatter {Nc : ℕ} (support : List (Fin Nc)) (vals : List ℚ)
    (hnd : support.Nodup) (hlen : vals.length = support.length)
    (hnz : ∀ x ∈ vals, x ≠ 0) :
    nonzeroCount (scatter support vals) = support.length := by
  unfold nonzeroCount
  have hset : (Finset.univ.filter fun j => scatter support vals j ≠ 0) =
      support.toFinset := by
    ext j
    simp [scatter_ne_zero_iff support vals hnd hlen hnz j]
  rw [hset, List.toFinset_card_of_nodup hnd]

lemma sum_map_div (l : List ℚ) (c : ℚ) :
    (l.map fun v => v / c).sum = l.sum / c := by
  induction l with
  | nil => simp
  | cons v vs ih => simp [ih, add_div]

lemma normalizeRow_length (vals : List ℚ) :
    (normalizeRow vals).length = vals.length := by
  simp [normalizeRow]

lemma normalizeRow_sum (vals : List ℚ) (h : vals.sum ≠ 0) :
    (normalizeRow vals).sum = 1 := by
  unfold normalizeRow
  rw [sum_map_div, div_self h]

lemma sum_pos_of_pos (vals : List ℚ) (hne : vals ≠ [])
    (hpos : ∀ x ∈ vals, 0 < x) : 0 < vals.sum :=
  List.sum_pos vals hpos hne

lemma normalizeRow_mem_bounds (vals : List ℚ) (hne : vals ≠ [])
    (hpos : ∀ x ∈ vals, 0 < x) :
    ∀ y ∈ normalizeRow vals, 0 < y ∧ y ≤ 1 := by
  intro y hy
  obtain ⟨v, hv, rfl⟩ := List.mem_map.mp hy
  have hS : 0 < vals.sum := sum_pos_of_pos vals hne hpos
  constructor
  · exact div_pos (hpos v hv) hS
  · rw [div_le_one hS]
    exact List.single_le_sum (fun x hx => (hpos x hx).le) v hv

/-- Under the preconditions that the support indices are distinct, the
draw counts match, and every uniform draw is strictly positive, each
generated row lies in the feasible simplex. -/
lemma simplex_row {Nc : ℕ} (support : List (Fin Nc)) (vals : List ℚ)
    (hnd : support.Nodup) (hlen : vals.length = support.length)
    (hne : vals ≠ []) (hpos : ∀ x ∈ vals, 0 < x) :
    simplex (scatter support (normalizeRow vals)) := by
  constructor
  · intro j
    rcases scatter_eq_zero_or_mem support (normalizeRow vals) j with h | h
    · rw [h]; exact ⟨le_refl 0, zero_le_one⟩
    · have := normalizeRow_mem_bounds vals hne hpos _ h
      exact ⟨this.1.le, this.2⟩
  · rw [sum_scatter support (normalizeRow vals) hnd
      (by rw [normalizeRow_length]; exact hlen)]
    exact normalizeRow_sum vals (sum_pos_of_pos vals hne hpos).ne'

/-! ## Concrete draw records used in counterexamples and witnesses -/

/-- Draws for `SimulateData(N_c = 2, N_t = 1, l = 2, u = 3)` in which one
of the two uniform draws is exactly `0` — a value `np.random.uniform`
(half-open `[0,1)`) can return. -/
def drawsC2 : Draws 2 1 1 where
  xcDraws := fun _ _ => 0
  supportSize := fun _ => 2
  support := fun _ => [0, 1]
  uniforms := fun _ => [0, 1/2]
  noise := fun _ _ => 0

/-- Draws in which both uniform draws of the row are exactly `0`, so the
normalising division has a zero denominator. -/
def drawsC10 : Draws 2 1 1 where
  xcDraws := fun _ _ => 0
  supportSize := fun _ => 2
  support := fun _ => [0, 1]
  uniforms := fun _ => [0, 0]
  noise := fun _ _ => 0

/-- One possible state of the process-global random sources consumed by a
`SimulateData(N_c = 2, N_t = 1, l = 1, u = 2)` call: support `{0}`. -/
def drawsSeedA : Draws 2 1 1 where
  xcDraws := fun _ _ => 0
  supportSize := fun _ => 1
  support := fun _ => [0]
  uniforms := fun _ => [1]
  noise := fun _ _ => 0

/-- Same call parameters, different global random state: support `{1}`. -/
def drawsSeedB : Draws 2 1 1 where
  xcDraws := fun _ _ => 0
  supportSize := fun _ => 1
  support := fun _ => [1]
  uniforms := fun _ => [1]
  noise := fun _ _ => 0

/-- Identical to `drawsSeedA` in every field `SimulateData` reads, but with
a different (redundant) `supportSize` record. -/
def drawsSeedA' : Draws 2 1 1 where
  xcDraws := fun _ _ => 0
  supportSize := fun _ => 5
  support := fun _ => [0]
  uniforms := fun _ => [1]
  noise := fun _ _ => 0

/-! ## Claims about `SimulateData` -/

/-- C2 (counterexample): with valid parameters `l = 2 < u = 3 ≤ N_c + 1`,
a distinct two-element support, and uniform draws `[0, 1/2]` (both in the
half-open range `[0,1)` of `np.random.uniform`, with positive sum so the
call returns normally with finite entries), the generated row has only one
nonzero entry — fewer than `l = 2` — refuting the claim that the nonzero
count always lies in `[l, u)`. -/
theorem C2_counterexample :
    (drawsC2.support 0).Nodup ∧
    (drawsC2.support 0).length = drawsC2.supportSize 0 ∧
    (drawsC2.uniforms 0).length = drawsC2.supportSize 0 ∧
    (2 ≤ drawsC2.supportSize 0 ∧ drawsC2.supportSize 0 < 3) ∧
    (∀ x ∈ drawsC2.uniforms 0, 0 ≤ x ∧ x < 1) ∧
    0 < (drawsC2.uniforms 0).sum ∧
    nonzeroCount ((SimulateData 2 1 1 2 3 drawsC2).2.2 0) = 1 ∧
    ¬ 2 ≤ nonzeroCount ((SimulateData 2 1 1 2 3 drawsC2).2.2 0) := by
  have hW : ∀ j, (SimulateData 2 1 1 2 3 drawsC2).2.2 0 j =
      if j = 1 then 1 else 0 := by
    intro j
    fin_cases j <;>
      norm_num [SimulateData, drawsC2, scatter, normalizeRow]
  have hset : (Finset.univ.filter
      fun j => (SimulateData 2 1 1 2 3 drawsC2).2.2 0 j ≠ 0) = {1} := by
    ext j
    fin_cases j <;> simp [hW]
  have hcard : nonzeroCount ((SimulateData 2 1 1 2 3 drawsC2).2.2 0) = 1 := by
    unfold nonzeroCount
    rw [hset]
    rfl
  refine ⟨by decide, rfl, rfl, by decide, ?_, by norm_num [drawsC2], hcard, ?_⟩
  · intro x hx
    simp only [drawsC2, List.mem_cons, List.not_mem_nil, or_false] at hx
    rcases hx with rfl | rfl <;> norm_num
  · rw [hcard]
    decide

/-- C2 (amended): for every call `Generate(N_c, N_t, mu, Sigma, l, u,
Gamma)` with `1 ≤ l < u ≤ N_c + 1` whose uniform draws are all strictly
positive (true almost surely; `np.random.uniform` can return exactly `0`),
every row of the returned `W` sums to exactly `1`, every entry lies in
`[0, 1]`, and the number of nonzero entries in each row lies in `[l, u)`. -/
theorem C2_generate_row_invariants (Nc Nt k l u : ℕ) (r : Draws Nc Nt k)
    (hl : 1 ≤ l) (hlu : l < u) (hub : u ≤ Nc + 1)
    (hnd : ∀ i, (r.support i).Nodup)
    (hslen : ∀ i, (r.support i).length = r.supportSize i)
    (hulen : ∀ i, (r.uniforms i).length = r.supportSize i)
    (hrange : ∀ i, l ≤ r.supportSize i ∧ r.supportSize i < u)
    (hpos : ∀ i, ∀ x ∈ r.uniforms i, 0 < x) (i : Fin Nt) :
    (∑ j, (SimulateData Nc Nt k l u r).2.2 i j) = 1 ∧
    (∀ j, 0 ≤ (SimulateData Nc Nt k l u r).2.2 i j ∧
      (SimulateData Nc Nt k l u r).2.2 i j ≤ 1) ∧
    l ≤ nonzeroCount ((SimulateData Nc Nt k l u r).2.2 i) ∧
    nonzeroCount ((SimulateData Nc Nt k l u r).2.2 i) < u := by
  have hW : (SimulateData Nc Nt k l u r).2.2 i =
      scatter (r.support i) (normalizeRow (r.uniforms i)) := rfl
  have hlen : (r.uniforms i).length = (r.support i).length := by
    rw [hulen i, hslen i]
  have hne : r.uniforms i ≠ [] := by
    have : 0 < (r.uniforms i).length := by
      rw [hulen i]
      exact lt_of_lt_of_le hl (hrange i).1
    exact List.length_pos.mp this
  have hsimp := simplex_row (r.support i) (r.uniforms i) (hnd i) hlen hne
    (hpos i)
  refine ⟨?_, ?_, ?_, ?_⟩
  · rw [hW]; exact hsimp.2
  · intro j; rw [hW]; exact hsimp.1 j
  · rw [hW, nonzeroCount_scatter (r.support i) (normalizeRow (r.uniforms i))
      (hnd i) (by rw [normalizeRow_length]; exact hlen)
      (fun x hx => (normalizeRow_mem_bounds (r.uniforms i) hne (hpos i) x hx).1.ne'),
      hslen i]
    exact (hrange i).1
  · rw [hW, nonzeroCount_scatter (r.support i) (normalizeRow (r.uniforms i))
      (hnd i) (by rw [normalizeRow_length]; exact hlen)
      (fun x hx => (normalizeRow_mem_bounds (r.uniforms i) hne (hpos i) x hx).1.ne'),
      hslen i]
    exact (hrange i).2

/-- C2 (witness): the amended invariants evaluated on the concrete draws
`drawsSeedA` with `N_c = 2, N_t = 1, l = 1, u = 2`. -/
theorem C2_generate_row_invariants_witness :
    (∑ j, (SimulateData 2 1 1 1 2 drawsSeedA).2.2 0 j) = 1 ∧
    (∀ j, 0 ≤ (SimulateData 2 1 1 1 2 drawsSeedA).2.2 0 j ∧
      (SimulateData 2 1 1 1 2 drawsSeedA).2.2 0 j ≤ 1) ∧
    1 ≤ nonzeroCount ((SimulateData 2 1 1 1 2 drawsSeedA).2.2 0) ∧
    nonzeroCount ((SimulateData 2 1 1 1 2 drawsSeedA).2.2 0) < 2 :=
  C2_generate_row_invariants 2 1 1 1 2 drawsSeedA (by decide) (by decide)
    (by decide) (by intro i; fin_cases i; decide) (by intro i; rfl)
    (by intro i; rfl) (by intro i; fin_cases i; decide)
    (fun i x hx => (List.mem_singleton.mp hx) ▸ zero_lt_one) 0

/-- C6: for every call to `SimulateData`, the returned `X_t` equals
`W · X_c` plus the per-row noise draw (the model of the per-row
multivariate-normal sample with mean `0` and covariance `Gamma`), entry by
entry; `X_t` has `N_t` rows and the same column dimension `k` as `X_c` by
type.  (That the noise draws are distributed `N(0, Gamma)` is a property
of the modelled random source, not of the data flow.) -/
theorem C6_xt_equals_WXc_plus_noise (Nc Nt k l u : ℕ) (r : Draws Nc Nt k)
    (i : Fin Nt) (j : Fin k) :
    (SimulateData Nc Nt k l u r).2.1 i j =
      (∑ c, (SimulateData Nc Nt k l u r).2.2 i c *
        (SimulateData Nc Nt k l u r).1 c j) + r.noise i j := rfl

/-- C8 (counterexample): `SimulateData` has no seed parameter; its output
depends on the process-global random sources.  Two calls with identical
parameters `(N_c, N_t, k, l, u)` but different global random states (draw
records) return different weight matrices — refuting determinism from the
declared inputs alone. -/
theorem C8_counterexample :
    (SimulateData 2 1 1 1 2 drawsSeedA).2.2 ≠
      (SimulateData 2 1 1 1 2 drawsSeedB).2.2 := by
  intro h
  have h00 := congrFun (congrFun h 0) 0
  norm_num [SimulateData, drawsSeedA, drawsSeedB, scatter, normalizeRow]
    at h00

/-- C8 (amended): `Generate` exposes no seed parameter; its output is a
deterministic function of the declared parameters together with the values
returned by the process-global random sources (`np.random` and `random`) —
and of nothing else: two calls consuming identical draws produce identical
outputs, while identical parameters alone do not determine the output. -/
theorem C8_output_determined_by_draws (Nc Nt k l u : ℕ)
    (r₁ r₂ : Draws Nc Nt k)
    (hx : r₁.xcDraws = r₂.xcDraws) (hs : r₁.support = r₂.support)
    (hv : r₁.uniforms = r₂.uniforms) (hn : r₁.noise = r₂.noise) :
    SimulateData Nc Nt k l u r₁ = SimulateData Nc Nt k l u r₂ := by
  unfold SimulateData
  rw [hx, hs, hv, hn]

/-- C8 (witness): two draw records agreeing on every field `SimulateData`
reads (but differing in the redundant `supportSize` record) yield equal
outputs. -/
theorem C8_output_determined_by_draws_witness :
    SimulateData 2 1 1 1 2 drawsSeedA = SimulateData 2 1 1 1 2 drawsSeedA' :=
  C8_output_determined_by_draws 2 1 1 1 2 drawsSeedA drawsSeedA'
    rfl rfl rfl rfl

/-- C10: the per-row normalisation `non_standardized /
non_standardized.sum()` has no guard against a zero sum.  If every uniform
draw of a row is exactly `0`, the call still returns (no error is raised)
but the row is broken: it sums to `0`, violating the sum-to-1 invariant
(in IEEE arithmetic the entries would be the non-finite `0.0/0.0`; in this
exact model `x / 0 = 0`).  Under the precondition that the row's draws
have a positive sum, the row sums to `1`. -/
theorem C10_zero_sum_unguarded (Nc Nt k l u : ℕ) (r : Draws Nc Nt k)
    (i : Fin Nt) (hnd : (r.support i).Nodup)
    (hlen : (r.uniforms i).length = (r.support i).length) :
    ((∀ x ∈ r.uniforms i, x = 0) →
      (∑ j, (SimulateData Nc Nt k l u r).2.2 i j) = 0) ∧
    (0 < (r.uniforms i).sum →
      (∑ j, (SimulateData Nc Nt k l u r).2.2 i j) = 1) := by
  have hW : (SimulateData Nc Nt k l u r).2.2 i =
      scatter (r.support i) (normalizeRow (r.uniforms i)) := rfl
  have hsum : (∑ j, (SimulateData Nc Nt k l u r).2.2 i j) =
      (normalizeRow (r.uniforms i)).sum := by
    rw [hW]
    exact sum_scatter (r.support i) (normalizeRow (r.uniforms i)) hnd
      (by rw [normalizeRow_length]; exact hlen)
  constructor
  · intro hzero
    rw [hsum]
    refine List.sum_eq_zero fun y hy => ?_
    obtain ⟨v, hv, rfl⟩ := List.mem_map.mp hy
    rw [hzero v hv, zero_div]
  · intro hposum
    rw [hsum]
    exact normalizeRow_sum (r.uniforms i) hposum.ne'

/-- C10 (witness): on the concrete all-zero draw record `drawsC10` the
returned row sums to `0` (the invariant is broken with no error), and the
positive-sum half holds vacuously-instantiated on the same record. -/
theorem C10_zero_sum_unguarded_witness :
    ((∀ x ∈ drawsC10.uniforms 0, x = 0) →
      (∑ j, (SimulateData 2 1 1 2 3 drawsC10).2.2 0 j) = 0) ∧
    (0 < (drawsC10.uniforms 0).sum →
      (∑ j, (SimulateData 2 1 1 2 3 drawsC10).2.2 0 j) = 1) :=
  C10_zero_sum_unguarded 2 1 1 2 3 drawsC10 0 (by decide) (by decide)

/-! ## Concrete solver oracles and inputs for the estimator claims -/

/-- A concrete solver oracle for `N_c = 2, k = 1` returning the simplex
vertex `(1, 0)` irrespective of the input. -/
def oneZeroSolve : (Fin 2 → Fin 1 → ℚ) → (Fin 1 → ℚ) → SolveResult 2 :=
  fun _ _ => ⟨.optimal, fun j => if j = 0 then 1 else 0⟩

lemma oneZeroSolve_feasible : IsFeasibleSolver oneZeroSolve := by
  intro X_c x
  refine ⟨fun j => ?_, ?_⟩
  · fin_cases j <;> norm_num [oneZeroSolve]
  · simp [oneZeroSolve, Fin.sum_univ_two]

/-- A concrete solver oracle for `N_c = 1`: the feasible set is the single
point `(1)`, which the oracle returns. -/
def soloSolve : (Fin 1 → Fin 1 → ℚ) → (Fin 1 → ℚ) → SolveResult 1 :=
  fun _ _ => ⟨.optimal, fun _ => 1⟩

lemma soloSolve_feasible : IsFeasibleSolver soloSolve := by
  intro X_c x
  exact ⟨fun j => ⟨zero_le_one, le_refl 1⟩, by simp [soloSolve]⟩

lemma soloSolve_exact : IsExactSolver soloSolve := by
  intro X_c x
  refine ⟨soloSolve_feasible X_c x, fun v hv => ?_⟩
  have hv0 : v 0 = 1 := by
    have := hv.2
    rwa [Fin.sum_univ_one] at this
  have hveq : v = fun _ => (1 : ℚ) :=
    funext fun j => by rw [Subsingleton.elim j 0, hv0]
  rw [hveq]
  exact le_of_eq rfl

/-- A solver outcome modelling a cvxpy solve that hit its iteration budget:
`Problem.solve` returns normally with status `optimal_inaccurate` and a
(garbage, here not even feasible) `Variable.value`. -/
def badSolve : (Fin 2 → Fin 1 → ℚ) → (Fin 1 → ℚ) → SolveResult 2 :=
  fun _ _ => ⟨.optimalInaccurate, fun j => if j = 0 then 3/10 else 9/10⟩

def xcC4 : Fin 2 → Fin 1 → ℚ := fun _ _ => 0

def xtC4 : TreatedInput 1 := TreatedInput.batch 1 fun _ _ => 1

/-- `X_c` for the C3 failing input: the 2×2 identity. -/
def xcC3 : Fin 2 → Fin 2 → ℚ := fun c j => if c = j then 1 else 0

/-- The single treated vector for the C3 failing input: `x = (0, 1)`. -/
def xC3 : Fin 2 → ℚ := fun j => if j = 0 then 0 else 1

/-- `w` is the unique minimiser of the code's objective over the feasible
simplex. -/
def uniqueSimplexMin {Nc k : ℕ} (X_c : Fin Nc → Fin k → ℚ)
    (x : Fin k → ℚ) (w : Fin Nc → ℚ) : Prop :=
  simplex w ∧ ∀ v, simplex v → v ≠ w → objSq X_c x w < objSq X_c x v

lemma objSq_id2 (x w : Fin 2 → ℚ) :
    objSq xcC3 x w = (w 0 - x 0) ^ 2 + (w 1 - x 1) ^ 2 := by
  norm_num [objSq, xcC3, Fin.sum_univ_two]

/-! ## Claims about `EstimateWeights` -/

/-- C1: for every call `Estimate(X_c, X_t)` in which the solver fulfils
its contract (returns a point of the feasible set the code passed to
cvxpy), every row of the returned `W_hat` (an `N_t × N_c` matrix by type)
sums to `1` within `1e-6` and every entry lies within `[-1e-6, 1 + 1e-6]`
— the code stores the solver's point unchanged, so the row inherits
feasibility. -/
theorem C1_estimate_row_invariants (Nc k : ℕ) [NeZero k]
    (solve : (Fin Nc → Fin k → ℚ) → (Fin k → ℚ) → SolveResult Nc)
    (hsolve : IsFeasibleSolver solve)
    (X_c : Fin Nc → Fin k → ℚ) (X_t : TreatedInput k)
    (i : Fin (numRows X_t)) :
    |(∑ j, EstimateWeights solve X_c X_t i j) - 1| ≤ 1/1000000 ∧
    ∀ j, -(1/1000000) ≤ EstimateWeights solve X_c X_t i j ∧
      EstimateWeights solve X_c X_t i j ≤ 1 + 1/1000000 := by
  have h := hsolve X_c (targetRow X_t i)
  constructor
  · have hsum : (∑ j, EstimateWeights solve X_c X_t i j) = 1 := h.2
    rw [hsum]
    norm_num
  · intro j
    have hb := h.1 j
    have hb1 : (0 : ℚ) ≤ EstimateWeights solve X_c X_t i j := hb.1
    have hb2 : EstimateWeights solve X_c X_t i j ≤ 1 := hb.2
    constructor
    · linarith
    · linarith

/-- C1 (witness): the invariants evaluated with the concrete feasible
oracle `oneZeroSolve` on a concrete input. -/
theorem C1_estimate_row_invariants_witness :
    |(∑ j, EstimateWeights oneZeroSolve (fun _ _ => 0)
      (TreatedInput.single fun _ => 0) ⟨0, Nat.one_pos⟩ j) - 1| ≤ 1/1000000 ∧
    ∀ j, -(1/1000000) ≤ EstimateWeights oneZeroSolve (fun _ _ => 0)
      (TreatedInput.single fun _ => 0) ⟨0, Nat.one_pos⟩ j ∧
      EstimateWeights oneZeroSolve (fun _ _ => 0)
        (TreatedInput.single fun _ => 0) ⟨0, Nat.one_pos⟩ j ≤ 1 + 1/1000000 :=
  C1_estimate_row_invariants 2 1 oneZeroSolve oneZeroSolve_feasible
    (fun _ _ => 0) (TreatedInput.single fun _ => 0) ⟨0, Nat.one_pos⟩

/-- C7: when `N_c = 1`, the feasible set `{w : 0 ≤ w ≤ 1, Σw = 1}` is the
single point `(1)`, so any solver fulfilling its feasibility contract
returns weight `1.0` for the sole control in every output row, regardless
of `X_t`. -/
theorem C7_single_control_weight_one (k : ℕ) [NeZero k]
    (solve : (Fin 1 → Fin k → ℚ) → (Fin k → ℚ) → SolveResult 1)
    (hsolve : IsFeasibleSolver solve)
    (X_c : Fin 1 → Fin k → ℚ) (X_t : TreatedInput k)
    (i : Fin (numRows X_t)) (j : Fin 1) :
    EstimateWeights solve X_c X_t i j = 1 := by
  have h := (hsolve X_c (targetRow X_t i)).2
  rw [Fin.sum_univ_one] at h
  rw [Subsingleton.elim j 0]
  exact h

/-- C7 (witness): with the sole-control oracle `soloSolve` and a nonzero
treated vector, the returned weight is `1`. -/
theorem C7_single_control_weight_one_witness :
    EstimateWeights soloSolve (fun _ _ => 0)
      (TreatedInput.single fun _ => 5) ⟨0, Nat.one_pos⟩ 0 = 1 :=
  C7_single_control_weight_one 1 soloSolve soloSolve_feasible
    (fun _ _ => 0) (TreatedInput.single fun _ => 5) ⟨0, Nat.one_pos⟩ 0

/-- C4 (counterexample): cvxpy's `Problem.solve` can return normally with
the non-converged status `optimal_inaccurate` and a populated
`Variable.value`; the code never inspects `prob.status` (and discards
`min_value`), so the not-converged value — here not even feasible — is
silently stored as row `i` of `W_hat` and no failure reaches the caller
(the return type of `EstimateWeights` has no error channel). -/
theorem C4_counterexample :
    (badSolve xcC4 (targetRow xtC4 ⟨0, Nat.one_pos⟩)).status =
      SolverStatus.optimalInaccurate ∧
    (∀ j, EstimateWeights badSolve xcC4 xtC4 ⟨0, Nat.one_pos⟩ j =
      (badSolve xcC4 (targetRow xtC4 ⟨0, Nat.one_pos⟩)).value j) ∧
    ¬ simplex (EstimateWeights badSolve xcC4 xtC4 ⟨0, Nat.one_pos⟩) := by
  refine ⟨rfl, fun j => rfl, fun hs => ?_⟩
  have h := hs.2
  rw [Fin.sum_univ_two] at h
  norm_num [EstimateWeights, badSolve] at h

/-- C4 (amended): `EstimateWeights` performs no convergence handling of
its own: row `i` of the output is verbatim the value component of the
solver's result, whatever its status.  A unit's failure is surfaced to the
caller only if the solver library itself raises; a solve that returns
normally without converging is silently absorbed into the output. -/
theorem C4_status_ignored (Nc k : ℕ) [NeZero k]
    (solve : (Fin Nc → Fin k → ℚ) → (Fin k → ℚ) → SolveResult Nc)
    (X_c : Fin Nc → Fin k → ℚ) (X_t : TreatedInput k)
    (i : Fin (numRows X_t)) :
    EstimateWeights solve X_c X_t i = (solve X_c (targetRow X_t i)).value :=
  rfl

/-- C4 (witness): the verbatim-storage fact evaluated at the concrete
non-converged solver outcome. -/
theorem C4_status_ignored_witness :
    EstimateWeights badSolve xcC4 xtC4 ⟨0, Nat.one_pos⟩ =
      (badSolve xcC4 (targetRow xtC4 ⟨0, Nat.one_pos⟩)).value :=
  C4_status_ignored 2 1 badSolve xcC4 xtC4 ⟨0, Nat.one_pos⟩

/-- C3: numpy evaluates `X_t[i,]` on a 1-D array to the scalar `X_t[0]`,
which cvxpy broadcasts; so on the failing input `X_c = I₂`,
`x = (0, 1)`, the single-vector call solves against the constant target
`(0, 0)` — whose unique simplex minimiser is `(1/2, 1/2)` — while row `0`
of the batch call solves against `(0, 1)` — whose unique simplex minimiser
is `(0, 1)`.  Any exact solver therefore returns different rows for the
two calls, contradicting the documented intent (minimise
`‖w'X_c − X_t‖` for the treated unit) and the spec's single-vector
equivalence. -/
theorem C3_single_vector_bug :
    targetRow (TreatedInput.single xC3) ⟨0, Nat.one_pos⟩ = (fun _ => 0) ∧
    targetRow (TreatedInput.batch 1 fun _ => xC3) ⟨0, Nat.one_pos⟩ = xC3 ∧
    uniqueSimplexMin xcC3 (fun _ => 0) (fun _ => 1/2) ∧
    uniqueSimplexMin xcC3 xC3 xC3 ∧
    (fun _ => (1 : ℚ)/2) ≠ xC3 := by
  refine ⟨rfl, rfl, ⟨?_, ?_⟩, ⟨?_, ?_⟩, ?_⟩
  · constructor
    · intro j
      norm_num
    · rw [Fin.sum_univ_two]
      norm_num
  · intro v hv hne
    have hsum : v 0 + v 1 = 1 := by
      have := hv.2
      rwa [Fin.sum_univ_two] at this
    have hv0 : v 0 ≠ 1/2 := by
      intro h0
      apply hne
      funext j
      fin_cases j
      · exact h0
      · show v 1 = 1/2
        linarith
    have hq : v 0 - 1/2 ≠ 0 := sub_ne_zero.mpr hv0
    have hsq : 0 < (v 0 - 1/2) ^ 2 :=
      lt_of_le_of_ne (sq_nonneg _) (Ne.symm (pow_ne_zero 2 hq))
    rw [objSq_id2, objSq_id2]
    nlinarith [hsq, hsum]
  · constructor
    · intro j
      fin_cases j <;> norm_num [xC3]
    · rw [Fin.sum_univ_two]
      norm_num [xC3]
  · intro v hv hne
    have hsum : v 0 + v 1 = 1 := by
      have := hv.2
      rwa [Fin.sum_univ_two] at this
    have hv0 : v 0 ≠ 0 := by
      intro h0
      apply hne
      funext j
      fin_cases j
      · show v 0 = xC3 0
        rw [h0]
        norm_num [xC3]
      · show v 1 = xC3 1
        norm_num [xC3]
        linarith
    have hsq : 0 < v 0 ^ 2 :=
      lt_of_le_of_ne (sq_nonneg _) (Ne.symm (pow_ne_zero 2 hv0))
    rw [objSq_id2, objSq_id2]
    norm_num [xC3]
    nlinarith [hsq, hsum]
  · intro h
    have := congrFun h 1
    norm_num [xC3] at this

/-- C5: if the noise draws are all `0` (Gamma the zero matrix) so that
`X_t = W · X_c` exactly with `W` row-stochastic by construction, then an
exact solver attains objective value `0` for every row — row `i` of `W`
is feasible with objective `0`, the objective is a sum of squares, hence
the minimum is `0` — so the reconstruction error of the returned weights
is `0 < 1e-6` (stated on the squared objective). -/
theorem C5_noiseless_roundtrip (Nc Nt k l u : ℕ) [NeZero k]
    (r : Draws Nc Nt k)
    (solve : (Fin Nc → Fin k → ℚ) → (Fin k → ℚ) → SolveResult Nc)
    (hsolve : IsExactSolver solve)
    (hnoise : ∀ i j, r.noise i j = 0)
    (hnd : ∀ i, (r.support i).Nodup)
    (hlen : ∀ i, (r.uniforms i).length = (r.support i).length)
    (hne : ∀ i, r.uniforms i ≠ [])
    (hpos : ∀ i, ∀ x ∈ r.uniforms i, 0 < x)
    (i : Fin Nt) :
    objSq (SimulateData Nc Nt k l u r).1
      (targetRow (TreatedInput.batch Nt (SimulateData Nc Nt k l u r).2.1) i)
      (EstimateWeights solve (SimulateData Nc Nt k l u r).1
        (TreatedInput.batch Nt (SimulateData Nc Nt k l u r).2.1) i) = 0 ∧
    objSq (SimulateData Nc Nt k l u r).1
      (targetRow (TreatedInput.batch Nt (SimulateData Nc Nt k l u r).2.1) i)
      (EstimateWeights solve (SimulateData Nc Nt k l u r).1
        (TreatedInput.batch Nt (SimulateData Nc Nt k l u r).2.1) i) <
      (1/1000000) ^ 2 := by
  have hWsimp : simplex ((SimulateData Nc Nt k l u r).2.2 i) :=
    simplex_row (r.support i) (r.uniforms i) (hnd i) (hlen i) (hne i)
      (hpos i)
  have hzero : objSq (SimulateData Nc Nt k l u r).1
      ((SimulateData Nc Nt k l u r).2.1 i)
      ((SimulateData Nc Nt k l u r).2.2 i) = 0 := by
    unfold objSq
    refine Finset.sum_eq_zero fun j _ => ?_
    have hcomm : (∑ c, (SimulateData Nc Nt k l u r).1 c j *
        (SimulateData Nc Nt k l u r).2.2 i c) =
        ∑ c, (SimulateData Nc Nt k l u r).2.2 i c *
          (SimulateData Nc Nt k l u r).1 c j :=
      Finset.sum_congr rfl fun c _ => mul_comm _ _
    rw [show (SimulateData Nc Nt k l u r).2.1 i j =
        (∑ c, (SimulateData Nc Nt k l u r).2.2 i c *
          (SimulateData Nc Nt k l u r).1 c j) + r.noise i j from rfl,
      hnoise i j, add_zero, hcomm, sub_self]
    exact zero_pow two_ne_zero
  have hmin := (hsolve (SimulateData Nc Nt k l u r).1
    ((SimulateData Nc Nt k l u r).2.1 i)).2
    ((SimulateData Nc Nt k l u r).2.2 i) hWsimp
  have hnonneg : 0 ≤ objSq (SimulateData Nc Nt k l u r).1
      ((SimulateData Nc Nt k l u r).2.1 i)
      ((solve (SimulateData Nc Nt k l u r).1
        ((SimulateData Nc Nt k l u r).2.1 i)).value) :=
    Finset.sum_nonneg fun j _ => sq_nonneg _
  have hmain : objSq (SimulateData Nc Nt k l u r).1
      ((SimulateData Nc Nt k l u r).2.1 i)
      ((solve (SimulateData Nc Nt k l u r).1
        ((SimulateData Nc Nt k l u r).2.1 i)).value) = 0 := by
    rw [hzero] at hmin
    exact le_antisymm hmin hnonneg
  refine ⟨hmain, ?_⟩
  rw [show objSq (SimulateData Nc Nt k l u r).1
      (targetRow (TreatedInput.batch Nt (SimulateData Nc Nt k l u r).2.1) i)
      (EstimateWeights solve (SimulateData Nc Nt k l u r).1
        (TreatedInput.batch Nt (SimulateData Nc Nt k l u r).2.1) i) =
      objSq (SimulateData Nc Nt k l u r).1
        ((SimulateData Nc Nt k l u r).2.1 i)
        ((solve (SimulateData Nc Nt k l u r).1
          ((SimulateData Nc Nt k l u r).2.1 i)).value) from rfl, hmain]
  norm_num

/-- Noise-free draws for a `SimulateData(N_c = 1, N_t = 1, l = 1, u = 2)`
call (`Gamma = 0`). -/
def drawsC5 : Draws 1 1 1 where
  xcDraws := fun _ _ => 1
  supportSize := fun _ => 1
  support := fun _ => [0]
  uniforms := fun _ => [1]
  noise := fun _ _ => 0

/-- C5 (witness): the noiseless round-trip on concrete noise-free draws
with the exact sole-control oracle. -/
theorem C5_noiseless_roundtrip_witness :
    objSq (SimulateData 1 1 1 1 2 drawsC5).1
      (targetRow (TreatedInput.batch 1 (SimulateData 1 1 1 1 2 drawsC5).2.1)
        ⟨0, Nat.one_pos⟩)
      (EstimateWeights soloSolve (SimulateData 1 1 1 1 2 drawsC5).1
        (TreatedInput.batch 1 (SimulateData 1 1 1 1 2 drawsC5).2.1)
        ⟨0, Nat.one_pos⟩) = 0 ∧
    objSq (SimulateData 1 1 1 1 2 drawsC5).1
      (targetRow (TreatedInput.batch 1 (SimulateData 1 1 1 1 2 drawsC5).2.1)
        ⟨0, Nat.one_pos⟩)
      (EstimateWeights soloSolve (SimulateData 1 1 1 1 2 drawsC5).1
        (TreatedInput.batch 1 (SimulateData 1 1 1 1 2 drawsC5).2.1)
        ⟨0, Nat.one_pos⟩) < (1/1000000) ^ 2 :=
  C5_noiseless_roundtrip 1 1 1 1 2 drawsC5 soloSolve soloSolve_exact
    (fun _ _ => rfl) (fun _ => List.nodup_singleton 0) (fun _ => rfl)
    (fun _ => List.cons_ne_nil 1 [])
    (fun _ x hx => (List.mem_singleton.mp hx) ▸ zero_lt_one) ⟨0, Nat.one_pos⟩

/-! ## Store-passing frame model of `EstimateWeights` (C9)

The pure model above cannot express mutation or aliasing, so the frame
claim is settled on a store-passing embedding: the heap is a list of
numpy arrays addressed by position, `np.zeros` allocates a fresh array at
the end of the heap, and the loop's row assignments write in place at the
output address only. -/

/-- A numpy array as stored in memory: 1-D or 2-D. -/
inductive PyArr where
  | one : List ℚ → PyArr
  | two : List (List ℚ) → PyArr
deriving DecidableEq

/-- The rows of an array (a 1-D array read as a single row). -/
def PyArr.rows : PyArr → List (List ℚ)
  | .one x => [x]
  | .two X => X

/-- `N_t` as computed on testbed.py lines 69–72. -/
def PyArr.nRows : PyArr → ℕ
  | .one _ => 1
  | .two X => X.length

/-- `X_t[i,]` as a concrete length-`k` list: row `i` of a 2-D array; for a
1-D array the scalar `X_t[0]` broadcast to length `k` (see `targetRow`). -/
def targetList (k : ℕ) : PyArr → ℕ → List ℚ
  | .one x, _ => List.replicate k (x.headD 0)
  | .two X, i => X.getD i []

/-- Store-passing `EstimateWeights` (testbed.py lines 53–87): read `X_c`
and `X_t` from the heap (reads only), allocate the fresh zero matrix
`W_hat = np.zeros(shape=(N_t, N_c))` at address `heap.length`, then for
each `i` overwrite row `i` of the array at that address with the solver's
value.  Returns the final heap and the address of `W_hat`. -/
def EstimateWeightsSt (solve : List (List ℚ) → List ℚ → List ℚ)
    (heap : List PyArr) (cIdx tIdx : ℕ) : List PyArr × ℕ :=
  let Xc := (heap.getD cIdx (.two [])).rows
  let t := heap.getD tIdx (.two [])
  let Nc := Xc.length
  let k := (Xc.headD []).length
  let Nt := t.nRows
  let out := heap.length
  let h0 := heap ++ [PyArr.two (List.replicate Nt (List.replicate Nc 0))]
  let hF := (List.range Nt).foldl
    (fun h i => h.set out
      (PyArr.two (((h.getD out (.two [])).rows).set i
        (solve Xc (targetList k t i))))) h0
  (hF, out)

lemma getD_set_ne (l : List PyArr) (m n : ℕ) (v : PyArr) (h : m ≠ n) :
    (l.set m v).getD n (PyArr.two []) = l.getD n (PyArr.two []) := by
  rw [List.getD_eq_getD_get?, List.getD_eq_getD_get?, List.get?_eq_getElem?,
    List.get?_eq_getElem?, List.getElem?_set_ne h]

lemma foldl_set_preserves (out a : ℕ) (ha : a ≠ out)
    (g : List PyArr → ℕ → PyArr) :
    ∀ (l : List ℕ) (h : List PyArr),
      ((l.foldl (fun h' i => h'.set out (g h' i)) h).getD a (PyArr.two []))
        = h.getD a (PyArr.two []) := by
  intro l
  induction l with
  | nil => intro h; rfl
  | cons x xs ih =>
    intro h
    rw [List.foldl_cons, ih]
    exact getD_set_ne h out a (g h x) (Ne.symm ha)

lemma estimateWeightsSt_frame (solve : List (List ℚ) → List ℚ → List ℚ)
    (heap : List PyArr) (cIdx tIdx a : ℕ) (ha : a < heap.length) :
    ((EstimateWeightsSt solve heap cIdx tIdx).1).getD a (PyArr.two []) =
      heap.getD a (PyArr.two []) := by
  show ((List.range _).foldl _
      (heap ++ [PyArr.two (List.replicate _ (List.replicate _ 0))])).getD a
      (PyArr.two []) = heap.getD a (PyArr.two [])
  rw [foldl_set_preserves heap.length a (ne_of_lt ha)]
  exact List.getD_append heap _ (PyArr.two []) a ha

/-- C9: on the store model, `EstimateWeights` leaves every pre-existing
array — in particular both inputs — byte-for-byte unchanged, and the
returned `W_hat` lives at a freshly allocated address distinct from both
input addresses (`np.zeros` allocates; only that address is ever written).
-/
theorem C9_no_input_mutation (solve : List (List ℚ) → List ℚ → List ℚ)
    (heap : List PyArr) (cIdx tIdx : ℕ)
    (hc : cIdx < heap.length) (ht : tIdx < heap.length) :
    (∀ a, a < heap.length →
      ((EstimateWeightsSt solve heap cIdx tIdx).1).getD a (PyArr.two []) =
        heap.getD a (PyArr.two [])) ∧
    (EstimateWeightsSt solve heap cIdx tIdx).2 = heap.length ∧
    (EstimateWeightsSt solve heap cIdx tIdx).2 ≠ cIdx ∧
    (EstimateWeightsSt solve heap cIdx tIdx).2 ≠ tIdx :=
  ⟨fun a ha => estimateWeightsSt_frame solve heap cIdx tIdx a ha, rfl,
    (ne_of_lt hc).symm, (ne_of_lt ht).symm⟩

/-- C9 (witness): the frame property evaluated on a concrete two-array
heap. -/
theorem C9_no_input_mutation_witness :
    (∀ a, a < ([PyArr.two [[0]], PyArr.two [[1]]] : List PyArr).length →
      ((EstimateWeightsSt (fun _ _ => [1])
          [PyArr.two [[0]], PyArr.two [[1]]] 0 1).1).getD a (PyArr.two []) =
        ([PyArr.two [[0]], PyArr.two [[1]]] : List PyArr).getD a
          (PyArr.two [])) ∧
    (EstimateWeightsSt (fun _ _ => [1])
      [PyArr.two [[0]], PyArr.two [[1]]] 0 1).2 =
      ([PyArr.two [[0]], PyArr.two [[1]]] : List PyArr).length ∧
    (EstimateWeightsSt (fun _ _ => [1])
      [PyArr.two [[0]], PyArr.two [[1]]] 0 1).2 ≠ 0 ∧
    (EstimateWeightsSt (fun _ _ => [1])
      [PyArr.two [[0]], PyArr.two [[1]]] 0 1).2 ≠ 1 :=
  C9_no_input_mutation (fun _ _ => [1]) [PyArr.two [[0]], PyArr.two [[1]]]
    0 1 (by decide) (by decide)

end Testbed
